import Mathlib

/-!
Verification development for the termdash container / focus-tracker /
event-distribution subsystems.

The repository sources available are the container focus tests
(`container/focus_test.go`); the implementations of the container tree,
`pointCont`, the focus tracker and the event distribution system are not
part of the visible sources, so they are modelled from the specification
(each such definition carries a doc comment starting with
`Modelled from the spec:`) and checked against the expectations recorded
in the tests.
-/

namespace Termdash

/-- A point in terminal grid coordinates (`image.Point` in the source tests). -/
structure Pt where
  x : Int
  y : Int
  deriving DecidableEq, Repr

/-- A half-open rectangle in grid coordinates: the cells `(x, y)` with
`x0 ≤ x < x1` and `y0 ≤ y < y1` (Go's `image.Rectangle` convention). -/
structure Rect where
  x0 : Int
  y0 : Int
  x1 : Int
  y1 : Int
  deriving DecidableEq, Repr

/-- Whether a point lies inside a rectangle. -/
def Rect.contains (r : Rect) (p : Pt) : Prop :=
  r.x0 ≤ p.x ∧ p.x < r.x1 ∧ r.y0 ≤ p.y ∧ p.y < r.y1

instance (r : Rect) (p : Pt) : Decidable (r.contains p) := by
  unfold Rect.contains; infer_instance

/-- The full-terminal rectangle for a terminal of size `w × h`. -/
def termRect (w h : Int) : Rect := ⟨0, 0, w, h⟩

/-- Direction of a container split. -/
inductive SplitDir where
  | vertical
  | horizontal
  deriving DecidableEq, Repr

/-- Style options carried by a container node: border on/off, the
focus-skip flag and the focus-group id (default group 0). -/
structure ContOpts where
  border : Bool
  focusSkip : Bool
  focusGroup : Nat
  deriving DecidableEq, Repr

/-- Default options: no border, no focus skip, group 0. -/
def ContOpts.default : ContOpts := ⟨false, false, 0⟩

/-- Modelled from the spec: the container tree (`Container` in the source,
whose implementation is not among the visible files). A node is either a
leaf or a split with two children; `pct` is the split ratio as an integer
percent (default 50). -/
inductive Cont where
  | leaf (opts : ContOpts) : Cont
  | split (opts : ContOpts) (dir : SplitDir) (pct : Nat) (first second : Cont) : Cont
  deriving DecidableEq, Repr

/-- A container is identified by its path from the root:
`false` selects the first (left/top) child, `true` the second. -/
abbrev Path := List Bool

/-- The root's path. -/
abbrev rootPath : Path := []

/-- Modelled from the spec: for a bordered node each border edge consumes
one row/column, so the child area is the inner rectangle. -/
def childArea (border : Bool) (r : Rect) : Rect :=
  if border then ⟨r.x0 + 1, r.y0 + 1, r.x1 - 1, r.y1 - 1⟩ else r

/-- Modelled from the spec: a vertical split divides the child area along
the x axis at `floor(width * pct / 100)`; the first child gets
`[x0, x0+splitX)` and the second `[x0+splitX, x0+width)`. Horizontal
splits are symmetric on y. -/
def splitRects (dir : SplitDir) (pct : Nat) (r : Rect) : Rect × Rect :=
  match dir with
  | .vertical =>
    let sx := r.x0 + (r.x1 - r.x0) * (pct : Int) / 100
    (⟨r.x0, r.y0, sx, r.y1⟩, ⟨sx, r.y0, r.x1, r.y1⟩)
  | .horizontal =>
    let sy := r.y0 + (r.y1 - r.y0) * (pct : Int) / 100
    (⟨r.x0, r.y0, r.x1, sy⟩, ⟨r.x0, sy, r.x1, r.y1⟩)

/-- Modelled from the spec: `pointCont` (the source's point→container
resolver, not among the visible files). Returns the path of the most
specific container whose area contains `p`, or `none` when `p` is outside
the rectangle assigned to the node. At a split node the search descends
into the child whose rectangle contains `p`; a point on a bordered split
node's own border glyphs (outer frame or splitter line) lies in neither
child rectangle and resolves to the split node itself. -/
def pointCont : Cont → Rect → Pt → Option Path
  | .leaf _, r, p => if r.contains p then some [] else none
  | .split o d pct f s, r, p =>
    if r.contains p then
      let ca := childArea o.border r
      let rf := (splitRects d pct ca).1
      let rs := (splitRects d pct ca).2
      if rf.contains p then (pointCont f rf p).map (List.cons false)
      else if rs.contains p then (pointCont s rs p).map (List.cons true)
      else some []
    else none

/-- The leaves of the container tree in in-order (left-to-right), each
with its path from the root and its options. -/
def leaves : Cont → List (Path × ContOpts)
  | .leaf o => [([], o)]
  | .split _ _ _ f s =>
    (leaves f).map (fun q => (false :: q.1, q.2)) ++
      (leaves s).map (fun q => (true :: q.1, q.2))

/-- Paths of the leaves, in order. -/
def leafPaths (t : Cont) : List Path := (leaves t).map Prod.fst

/-- The paths of the leaves whose options satisfy `pred`, in order. -/
def selLeaves (t : Cont) (pred : ContOpts → Bool) : List Path :=
  ((leaves t).filter (fun q => pred q.2)).map Prod.fst

/-- Modelled from the spec: the leaf list used by global keyboard
traversal — in-order leaves with the `focus_skip` ones removed. -/
def nonSkipLeaves (t : Cont) : List Path :=
  selLeaves t (fun o => !o.focusSkip)

/-- Modelled from the spec: membership of a leaf in focus group `g`.
Group 0 is universal: every leaf belongs to it; otherwise a leaf belongs
to the group its `focus_group` names. -/
def inGroup (g : Nat) (o : ContOpts) : Bool :=
  g == 0 || o.focusGroup == g

/-- Modelled from the spec: the leaf list used by focus-group traversal —
leaves of group `g`, in order, with `focus_skip` ignored. -/
def groupLeaves (t : Cont) (g : Nat) : List Path :=
  selLeaves t (inGroup g)

/-- Index of the first occurrence of `a` in a list of paths; the list's
length when `a` does not occur. -/
def idxOf (a : Path) : List Path → Nat
  | [] => 0
  | x :: xs => if x = a then 0 else idxOf a xs + 1

/-- The cyclic successor of `a` in the list `l`: the element after the
first occurrence of `a`, wrapping at the end; the first element when `a`
does not occur; the root path when `l` is empty. -/
def cycNextIn (l : List Path) (a : Path) : Path :=
  if h : l.length = 0 then []
  else
    have hn : 0 < l.length := Nat.pos_of_ne_zero h
    let i := idxOf a l
    if i < l.length then l.get ⟨(i + 1) % l.length, Nat.mod_lt _ hn⟩
    else l.get ⟨0, hn⟩

/-- The cyclic predecessor of `a` in the list `l`: the element before the
first occurrence of `a`, wrapping at the start; the last element when `a`
does not occur; the root path when `l` is empty. -/
def cycPrevIn (l : List Path) (a : Path) : Path :=
  if h : l.length = 0 then []
  else
    have hn : 0 < l.length := Nat.pos_of_ne_zero h
    let i := idxOf a l
    if i < l.length then l.get ⟨(i + l.length - 1) % l.length, Nat.mod_lt _ hn⟩
    else l.get ⟨l.length - 1, by omega⟩

/-- Modelled from the spec: `key_focus_next` traversal. Traverse the
non-skipped leaves left to right; from the root (or any container not in
the list) move to the first, otherwise to the next, wrapping at the end;
when every leaf is skipped focus goes to the root. -/
def focusNext (t : Cont) (a : Path) : Path :=
  cycNextIn (nonSkipLeaves t) a

/-- Modelled from the spec: `key_focus_previous` traversal, symmetric to
`focusNext` right to left; from the root move to the last non-skipped
leaf. -/
def focusPrevious (t : Cont) (a : Path) : Path :=
  cycPrevIn (nonSkipLeaves t) a

/-- Modelled from the spec: `keys_focus_group_next` traversal — the same
cyclic traversal restricted to the leaves of group `g`, ignoring
`focus_skip`. -/
def groupFocusNext (t : Cont) (g : Nat) (a : Path) : Path :=
  cycNextIn (groupLeaves t g) a

/-- Modelled from the spec: `keys_focus_group_previous` traversal. -/
def groupFocusPrevious (t : Cont) (g : Nat) (a : Path) : Path :=
  cycPrevIn (groupLeaves t g) a

/-- Mouse buttons (`mouse.Button` in the source tests). -/
inductive Button where
  | left
  | middle
  | right
  | release
  | wheelUp
  | wheelDown
  deriving DecidableEq, Repr

/-- Terminal events consumed by the tracker: a mouse event with position
and button, or a keyboard event with an opaque key token. -/
inductive Event where
  | mouse (p : Pt) (b : Button)
  | key (k : Nat)
  deriving DecidableEq, Repr

/-- Modelled from the spec: the mouse gesture state machine of the focus
tracker — idle, or armed on the container that received a left press. -/
inductive FSM where
  | idle
  | armed (n : Path)
  deriving DecidableEq, Repr

/-- Key bindings configured on the root container: the optional global
next/previous keys and the per-group key sets. -/
structure KeyBindings where
  next : Option Nat
  previous : Option Nat
  groupNext : List (Nat × List Nat)
  groupPrevious : List (Nat × List Nat)
  deriving DecidableEq, Repr

/-- No key bindings. -/
def KeyBindings.none : KeyBindings := ⟨Option.none, Option.none, [], []⟩

/-- The first group whose key set contains `k`, if any. -/
def groupFor (bs : List (Nat × List Nat)) (k : Nat) : Option Nat :=
  match bs with
  | [] => Option.none
  | (g, ks) :: rest => if k ∈ ks then some g else groupFor rest k

/-- Static configuration of a running system: the container tree, the
terminal rectangle and the root's key bindings. -/
structure Sys where
  tree : Cont
  term : Rect
  keys : KeyBindings

/-- Dynamic state: the active container, the mouse gesture state and the
event distribution system's processed counter. -/
structure St where
  active : Path
  fsm : FSM
  processed : Nat
  deriving DecidableEq, Repr

/-- Initial state: the root is active, no gesture armed, nothing
processed. -/
def initSt : St := ⟨[], .idle, 0⟩

/-- Modelled from the spec: `focusTracker.isActive`. -/
def isActive (s : St) (n : Path) : Prop := s.active = n

instance (s : St) (n : Path) : Decidable (isActive s n) := by
  unfold isActive; infer_instance

/-- Modelled from the spec: the focus tracker's handling of one mouse
event (§4.3 table). A left press arms the gesture on the container at the
press position (a press outside every container is silently ignored); a
release while armed sets the active container exactly when the release
position resolves to the armed container, and always disarms; any other
button press cancels an armed gesture and never changes focus. -/
def mouseApply (sys : Sys) (s : St) (p : Pt) (b : Button) : St :=
  match b with
  | .left =>
    match pointCont sys.tree sys.term p with
    | some n => { s with fsm := .armed n }
    | Option.none => s
  | .release =>
    match s.fsm with
    | .armed n =>
      if pointCont sys.tree sys.term p = some n then { s with active := n, fsm := .idle }
      else { s with fsm := .idle }
    | .idle => s
  | _ => { s with fsm := .idle }

/-- Modelled from the spec: the focus tracker's handling of one keyboard
event. A key bound to `key_focus_next` / `key_focus_previous` triggers
global traversal; a key in a group's key set triggers group traversal;
any other key is discarded. -/
def keyApply (sys : Sys) (s : St) (k : Nat) : St :=
  if sys.keys.next = some k then { s with active := focusNext sys.tree s.active }
  else if sys.keys.previous = some k then { s with active := focusPrevious sys.tree s.active }
  else
    match groupFor sys.keys.groupNext k with
    | some g => { s with active := groupFocusNext sys.tree g s.active }
    | Option.none =>
      match groupFor sys.keys.groupPrevious k with
      | some g => { s with active := groupFocusPrevious sys.tree g s.active }
      | Option.none => s

/-- Modelled from the spec: one step of the event distribution system
delivering an event to the container's subscriber. The processed counter
advances by exactly one per input event after delivery, whether or not
the event changed focus. -/
def step (sys : Sys) (s : St) (e : Event) : St :=
  let s' :=
    match e with
    | .mouse p b => mouseApply sys s p b
    | .key k => keyApply sys s k
  { s' with processed := s.processed + 1 }

/-- Run a finite sequence of events through the system. -/
def runEvents (sys : Sys) (s : St) (evs : List Event) : St :=
  evs.foldl (step sys) s

/-- A mouse event whose button is not the left button (the claim about
sequences of middle, right, wheel and release events). -/
def nonLeftMouse : Event → Bool
  | .mouse _ b => b != .left
  | .key _ => false

/-! Concrete fixtures taken from `container/focus_test.go`. -/

/-- A single borderless leaf container (the `New(ft, BorderColor(...))`
fixture on a 3×3 terminal, and the single-root fixture of the traversal
tests). -/
def singleLeaf : Cont := .leaf ContOpts.default

/-- The tree of `TestPointCont` "split containers, parent has border":
a bordered root split vertically into a left child (itself split
horizontally into a green top and a white bottom leaf) and a red right
leaf. -/
def borderedTree : Cont :=
  .split ⟨true, false, 0⟩ .vertical 50
    (.split ContOpts.default .horizontal 50 (.leaf ContOpts.default) (.leaf ContOpts.default))
    (.leaf ContOpts.default)

/-- The two-leaf tree of the focus tests: a borderless vertical split
with plain left (B) and right (C) leaves under the root (A). -/
def twoLeafTree : Cont :=
  .split ContOpts.default .vertical 50 (.leaf ContOpts.default) (.leaf ContOpts.default)

/-- The two-leaf tree with the left child carrying `KeyFocusSkip`. -/
def skipLeftTree : Cont :=
  .split ContOpts.default .vertical 50 (.leaf ⟨false, true, 0⟩) (.leaf ContOpts.default)

/-- The two-leaf tree with both children carrying `KeyFocusSkip`. -/
def skipBothTree : Cont :=
  .split ContOpts.default .vertical 50 (.leaf ⟨false, true, 0⟩) (.leaf ⟨false, true, 0⟩)

/-- The key token bound to `KeyFocusNext` in the tests (`keyboard.KeyTab`). -/
def keyNextTok : Nat := 9

/-- The key token bound to `KeyFocusPrevious` in the tests (the rune `~`). -/
def keyPrevTok : Nat := 126

/-- The key token used for `KeysFocusGroupNext` in the tests (the rune `n`). -/
def keyGroupNextTok : Nat := 110

/-- The key token used for `KeysFocusGroupPrevious` in the tests (the rune `p`). -/
def keyGroupPrevTok : Nat := 112

/-- The mouse-test system: the two-leaf tree on a 10×10 terminal with no
key bindings. -/
def mouseSys : Sys := ⟨twoLeafTree, termRect 10 10, KeyBindings.none⟩

/-- A system over tree `t` on a 10×10 terminal with only `KeyFocusNext`
bound. -/
def sysNext (t : Cont) : Sys :=
  ⟨t, termRect 10 10, ⟨some keyNextTok, Option.none, [], []⟩⟩

/-- A system over tree `t` with only `KeyFocusPrevious` bound. -/
def sysPrev (t : Cont) : Sys :=
  ⟨t, termRect 10 10, ⟨Option.none, some keyPrevTok, [], []⟩⟩

/-- A system over tree `t` with only `KeysFocusGroupNext(g, [n])` bound. -/
def sysGroupNext (t : Cont) (g : Nat) : Sys :=
  ⟨t, termRect 10 10, ⟨Option.none, Option.none, [(g, [keyGroupNextTok])], []⟩⟩

/-- A system over tree `t` with only `KeysFocusGroupPrevious(g, [p])` bound. -/
def sysGroupPrev (t : Cont) (g : Nat) : Sys :=
  ⟨t, termRect 10 10, ⟨Option.none, Option.none, [], [(g, [keyGroupPrevTok])]⟩⟩

/-! Helper lemmas. -/

/-- Inside the node's rectangle, `pointCont` always finds a container. -/
theorem pointCont_isSome (t : Cont) (r : Rect) (p : Pt) (h : r.contains p) :
    (pointCont t r p).isSome := by
  induction t generalizing r with
  | leaf o => simp [pointCont, h]
  | split o d pct f s ihf ihs =>
    simp only [pointCont, if_pos h]
    by_cases hf : ((splitRects d pct (childArea o.border r)).1).contains p
    · obtain ⟨q, hq⟩ := Option.isSome_iff_exists.mp (ihf _ hf)
      simp [hf, hq]
    · by_cases hs : ((splitRects d pct (childArea o.border r)).2).contains p
      · obtain ⟨q, hq⟩ := Option.isSome_iff_exists.mp (ihs _ hs)
        simp [hf, hs, hq]
      · simp [hf, hs]

/-- `pointCont` returns `none` exactly for points outside the node's
rectangle. -/
theorem pointCont_eq_none_iff (t : Cont) (r : Rect) (p : Pt) :
    pointCont t r p = Option.none ↔ ¬ r.contains p := by
  constructor
  · intro h hc
    have hs := pointCont_isSome t r p hc
    rw [h] at hs
    simp at hs
  · intro hc
    cases t <;> simp [pointCont, hc]

/-- Running one more event advances the processed counter by one. -/
theorem processed_step (sys : Sys) (s : St) (e : Event) :
    (step sys s e).processed = s.processed + 1 := by
  simp [step]

/-- Running a sequence of events advances the processed counter by the
number of events, whatever they are. -/
theorem processed_runEvents (sys : Sys) (evs : List Event) (s : St) :
    (runEvents sys s evs).processed = s.processed + evs.length := by
  induction evs generalizing s with
  | nil => simp [runEvents]
  | cons e evs ih =>
    show (runEvents sys (step sys s e) evs).processed = s.processed + (e :: evs).length
    rw [ih, processed_step]
    simp
    omega

/-- Splitting the tree maps leaf paths through `List.cons`. -/
theorem leafPaths_split (o : ContOpts) (d : SplitDir) (pct : Nat) (f s : Cont) :
    leafPaths (.split o d pct f s) =
      (leafPaths f).map (List.cons false) ++ (leafPaths s).map (List.cons true) := by
  simp only [leafPaths, leaves, List.map_append, List.map_map]
  rfl

/-- The leaf paths of a tree are pairwise distinct. -/
theorem nodup_leafPaths (t : Cont) : (leafPaths t).Nodup := by
  induction t with
  | leaf o => simp [leafPaths, leaves]
  | split o d pct f s ihf ihs =>
    rw [leafPaths_split]
    refine List.Nodup.append ?_ ?_ ?_
    · exact ihf.map (fun a b h => by simpa using h)
    · exact ihs.map (fun a b h => by simpa using h)
    · intro x hx hy
      obtain ⟨a, _, rfl⟩ := List.mem_map.mp hx
      obtain ⟨b, _, hb⟩ := List.mem_map.mp hy
      simp at hb

/-- Any selected leaf list is a sublist of the full leaf-path list. -/
theorem selLeaves_sublist (t : Cont) (pred : ContOpts → Bool) :
    (selLeaves t pred).Sublist (leafPaths t) :=
  ((leaves t).filter_sublist).map Prod.fst

/-- Selected leaf lists are pairwise distinct. -/
theorem nodup_selLeaves (t : Cont) (pred : ContOpts → Bool) :
    (selLeaves t pred).Nodup :=
  (nodup_leafPaths t).sublist (selLeaves_sublist t pred)

/-- Every leaf path of a split node is non-empty. -/
theorem leafPaths_split_ne_nil (o : ContOpts) (d : SplitDir) (pct : Nat)
    (f s : Cont) (q : Path) (hq : q ∈ leafPaths (.split o d pct f s)) : q ≠ [] := by
  rw [leafPaths_split] at hq
  rcases List.mem_append.mp hq with h | h <;>
    · obtain ⟨a, _, rfl⟩ := List.mem_map.mp h
      simp

/-- The root path is not a selected leaf of a split node. -/
theorem rootPath_not_mem_selLeaves_split (o : ContOpts) (d : SplitDir) (pct : Nat)
    (f s : Cont) (pred : ContOpts → Bool) :
    rootPath ∉ selLeaves (.split o d pct f s) pred := by
  intro hmem
  exact leafPaths_split_ne_nil o d pct f s rootPath
    ((selLeaves_sublist _ pred).mem hmem) rfl

/-- `idxOf` of an element that does not occur is the list's length. -/
theorem idxOf_eq_length_of_not_mem (a : Path) (l : List Path) (h : a ∉ l) :
    idxOf a l = l.length := by
  induction l with
  | nil => rfl
  | cons x xs ih =>
    have hxa : x ≠ a := fun hx => h (hx ▸ List.mem_cons_self x xs)
    have hm : a ∉ xs := fun hm => h (List.mem_cons_of_mem x hm)
    simp [idxOf, hxa, ih hm]

/-- On a duplicate-free list, `idxOf` recovers the index of an element. -/
theorem idxOf_get_of_nodup (l : List Path) (hnd : l.Nodup) (i : Fin l.length) :
    idxOf (l.get i) l = i.val := by
  induction l with
  | nil => exact absurd i.isLt (by simp)
  | cons x xs ih =>
    obtain ⟨iv, hi⟩ := i
    cases iv with
    | zero => simp [idxOf]
    | succ j =>
      have hj : j < xs.length := by simpa using hi
      have hget : (x :: xs).get ⟨j + 1, hi⟩ = xs.get ⟨j, hj⟩ := rfl
      have hmem : xs.get ⟨j, hj⟩ ∈ xs := xs.get_mem _ _
      have hxne : x ≠ xs.get ⟨j, hj⟩ := by
        intro hx
        exact (List.nodup_cons.mp hnd).1 (hx ▸ hmem)
      have ihx := ih (List.nodup_cons.mp hnd).2 ⟨j, hj⟩
      simp only [List.get_eq_getElem] at hxne ihx
      simp [idxOf, hget, hxne, ihx]

/-- The head with default of a non-empty list is its first entry. -/
theorem headD_eq_get (l : List Path) (h : l ≠ []) :
    l.headD [] = l.get ⟨0, List.length_pos.mpr h⟩ := by
  cases l with
  | nil => exact absurd rfl h
  | cons x xs => rfl

/-- The last with default of a non-empty list is its last entry. -/
theorem getLastD_eq_get (l : List Path) (h : l ≠ []) :
    l.getLastD [] = l.get ⟨l.length - 1, by
      have := List.length_pos.mpr h
      omega⟩ := by
  rw [List.getLastD_eq_getLast?, List.getLast?_eq_getLast l h]
  simp [List.getLast_eq_getElem]

/-- The cyclic successor of an element not in the list is the first
element. -/
theorem cycNextIn_not_mem (l : List Path) (a : Path) (h : a ∉ l) :
    cycNextIn l a = l.headD [] := by
  unfold cycNextIn
  by_cases hl : l.length = 0
  · simp [hl, List.length_eq_zero.mp hl]
  · have hne : l ≠ [] := fun hnil => hl (by simp [hnil])
    have hidx : idxOf a l = l.length := idxOf_eq_length_of_not_mem a l h
    rw [dif_neg hl]
    simp only [hidx, if_neg (lt_irrefl l.length)]
    exact (headD_eq_get l hne).symm

/-- The cyclic predecessor of an element not in the list is the last
element. -/
theorem cycPrevIn_not_mem (l : List Path) (a : Path) (h : a ∉ l) :
    cycPrevIn l a = l.getLastD [] := by
  unfold cycPrevIn
  by_cases hl : l.length = 0
  · simp [hl, List.length_eq_zero.mp hl]
  · have hne : l ≠ [] := fun hnil => hl (by simp [hnil])
    have hidx : idxOf a l = l.length := idxOf_eq_length_of_not_mem a l h
    rw [dif_neg hl]
    simp only [hidx, if_neg (lt_irrefl l.length)]
    exact (getLastD_eq_get l hne).symm

/-- Cyclic successor within a singleton list. -/
theorem cycNextIn_singleton (x a : Path) : cycNextIn [x] a = x := by
  unfold cycNextIn
  by_cases hx : idxOf a [x] < 1 <;> simp [hx]

/-- Cyclic predecessor within a singleton list. -/
theorem cycPrevIn_singleton (x a : Path) : cycPrevIn [x] a = x := by
  unfold cycPrevIn
  by_cases hx : idxOf a [x] < 1 <;> simp [hx]

/-- `cycNextIn` on the empty list yields the root path. -/
theorem cycNextIn_nil (a : Path) : cycNextIn [] a = [] := by
  unfold cycNextIn
  simp

/-- `cycPrevIn` on the empty list yields the root path. -/
theorem cycPrevIn_nil (a : Path) : cycPrevIn [] a = [] := by
  unfold cycPrevIn
  simp

/-- From the root, a selected-leaf traversal forward goes to the first
selected leaf (the root itself when there is none). -/
theorem cycNextIn_selLeaves_root (t : Cont) (pred : ContOpts → Bool) :
    cycNextIn (selLeaves t pred) rootPath = (selLeaves t pred).headD rootPath := by
  cases t with
  | leaf o =>
    by_cases hp : pred o <;>
      simp [selLeaves, leaves, hp, cycNextIn_singleton, cycNextIn_nil, rootPath]
  | split o d pct f s =>
    exact cycNextIn_not_mem _ _ (rootPath_not_mem_selLeaves_split o d pct f s pred)

/-- From the root, a selected-leaf traversal backward goes to the last
selected leaf (the root itself when there is none). -/
theorem cycPrevIn_selLeaves_root (t : Cont) (pred : ContOpts → Bool) :
    cycPrevIn (selLeaves t pred) rootPath = (selLeaves t pred).getLastD rootPath := by
  cases t with
  | leaf o =>
    by_cases hp : pred o <;>
      simp [selLeaves, leaves, hp, cycPrevIn_singleton, cycPrevIn_nil, rootPath]
  | split o d pct f s =>
    exact cycPrevIn_not_mem _ _ (rootPath_not_mem_selLeaves_split o d pct f s pred)

/-- On a duplicate-free list the cyclic successor steps one index
forward, wrapping. -/
theorem cycNextIn_get (l : List Path) (hnd : l.Nodup) (i : Fin l.length) :
    cycNextIn l (l.get i) = l.get ⟨(i.val + 1) % l.length, Nat.mod_lt _ i.pos⟩ := by
  have hl : l.length ≠ 0 := by
    have := i.isLt
    omega
  unfold cycNextIn
  rw [dif_neg hl]
  have hidx := idxOf_get_of_nodup l hnd i
  simp only [hidx, if_pos i.isLt]

/-- `focusNext` from the root goes to the first non-skipped leaf, and to
the root itself when every leaf is skipped. -/
theorem focusNext_root (t : Cont) :
    focusNext t rootPath = (nonSkipLeaves t).headD rootPath :=
  cycNextIn_selLeaves_root t _

/-- `focusPrevious` from the root goes to the last non-skipped leaf, and
to the root itself when every leaf is skipped. -/
theorem focusPrevious_root (t : Cont) :
    focusPrevious t rootPath = (nonSkipLeaves t).getLastD rootPath :=
  cycPrevIn_selLeaves_root t _

/-- `groupFocusNext` from the root goes to the first leaf of the group. -/
theorem groupFocusNext_root (t : Cont) (g : Nat) :
    groupFocusNext t g rootPath = (groupLeaves t g).headD rootPath :=
  cycNextIn_selLeaves_root t _

/-- `groupFocusPrevious` from the root goes to the last leaf of the
group. -/
theorem groupFocusPrevious_root (t : Cont) (g : Nat) :
    groupFocusPrevious t g rootPath = (groupLeaves t g).getLastD rootPath :=
  cycPrevIn_selLeaves_root t _

/-- A key event for the bound `KeyFocusNext` key performs one forward
traversal step. -/
theorem active_step_keyNext (t : Cont) (s : St) :
    (step (sysNext t) s (Event.key keyNextTok)).active = focusNext t s.active := by
  simp [step, keyApply, sysNext]

/-- A key event for the bound `KeyFocusPrevious` key performs one
backward traversal step. -/
theorem active_step_keyPrev (t : Cont) (s : St) :
    (step (sysPrev t) s (Event.key keyPrevTok)).active = focusPrevious t s.active := by
  simp [step, keyApply, sysPrev]

/-- A key event for a bound group-next key performs one group traversal
step. -/
theorem active_step_keyGroupNext (t : Cont) (g : Nat) (s : St) :
    (step (sysGroupNext t g) s (Event.key keyGroupNextTok)).active =
      groupFocusNext t g s.active := by
  simp [step, keyApply, sysGroupNext, groupFor, keyGroupNextTok]

/-- A key event for a bound group-previous key performs one group
traversal step. -/
theorem active_step_keyGroupPrev (t : Cont) (g : Nat) (s : St) :
    (step (sysGroupPrev t g) s (Event.key keyGroupPrevTok)).active =
      groupFocusPrevious t g s.active := by
  simp [step, keyApply, sysGroupPrev, groupFor, keyGroupPrevTok]

/-- Running `m` presses of the next key iterates `focusNext` `m` times. -/
theorem active_runEvents_replicate_keyNext (t : Cont) (m : Nat) (s : St) :
    (runEvents (sysNext t) s (List.replicate m (Event.key keyNextTok))).active =
      (focusNext t)^[m] s.active := by
  induction m generalizing s with
  | zero => rfl
  | succ m ih =>
    rw [List.replicate_succ]
    show (runEvents (sysNext t) (step (sysNext t) s (Event.key keyNextTok))
        (List.replicate m (Event.key keyNextTok))).active = _
    rw [ih, active_step_keyNext]
    exact (Function.iterate_succ_apply _ _ _).symm

/-- The orbit of `focusNext` starting at the first non-skipped leaf
cycles through the non-skipped leaves by index. -/
theorem focusNext_iterate_get (t : Cont) (h0 : 0 < (nonSkipLeaves t).length) (j : Nat) :
    (focusNext t)^[j] ((nonSkipLeaves t).get ⟨0, h0⟩) =
      (nonSkipLeaves t).get ⟨j % (nonSkipLeaves t).length, Nat.mod_lt _ h0⟩ := by
  have hnd : (nonSkipLeaves t).Nodup := nodup_selLeaves t _
  induction j with
  | zero =>
    simp only [Function.iterate_zero, id_eq]
    apply congrArg
    exact Fin.ext (Nat.zero_mod _).symm
  | succ j ih =>
    rw [Function.iterate_succ_apply', ih]
    show cycNextIn (nonSkipLeaves t) _ = _
    rw [cycNextIn_get _ hnd]
    apply congrArg
    exact Fin.ext (Nat.mod_add_mod j _ 1)

/-- A run of events none of which is a left-button mouse press, started
with the gesture machine idle, keeps the machine idle and the active
container unchanged. -/
theorem runEvents_nonLeft_idle (sys : Sys) (evs : List Event) (s : St)
    (hidle : s.fsm = FSM.idle) (hall : ∀ e ∈ evs, nonLeftMouse e = true) :
    (runEvents sys s evs).active = s.active ∧ (runEvents sys s evs).fsm = FSM.idle := by
  induction evs generalizing s with
  | nil => exact ⟨rfl, hidle⟩
  | cons e evs ih =>
    obtain ⟨a, f, pr⟩ := s
    cases hidle
    have hhd := hall e (List.mem_cons_self e evs)
    have htail : ∀ x ∈ evs, nonLeftMouse x = true :=
      fun x hx => hall x (List.mem_cons_of_mem e hx)
    cases e with
    | key k => simp [nonLeftMouse] at hhd
    | mouse p b =>
      cases b with
      | left => simp [nonLeftMouse] at hhd
      | middle => exact ih ⟨a, FSM.idle, pr + 1⟩ rfl htail
      | right => exact ih ⟨a, FSM.idle, pr + 1⟩ rfl htail
      | release => exact ih ⟨a, FSM.idle, pr + 1⟩ rfl htail
      | wheelUp => exact ih ⟨a, FSM.idle, pr + 1⟩ rfl htail
      | wheelDown => exact ih ⟨a, FSM.idle, pr + 1⟩ rfl htail

/-! Claim theorems. -/

/-- C1 (amended): applying the key bound to `key_focus_next` exactly
`k × |non-skip leaves| + 1` times from the initial state makes the first
non-skip leaf the active container, for every `k ≥ 0`, provided there is
at least one non-skip leaf; the root does not become active again. -/
theorem keyFocusNext_cycle_first_leaf (t : Cont) (k : Nat)
    (h : nonSkipLeaves t ≠ []) :
    (runEvents (sysNext t) initSt
        (List.replicate (k * (nonSkipLeaves t).length + 1) (Event.key keyNextTok))).active =
      (nonSkipLeaves t).headD rootPath := by
  have h0 : 0 < (nonSkipLeaves t).length := List.length_pos.mpr h
  rw [active_runEvents_replicate_keyNext]
  show (focusNext t)^[k * (nonSkipLeaves t).length + 1] rootPath = _
  have hroot : focusNext t rootPath = (nonSkipLeaves t).get ⟨0, h0⟩ := by
    rw [focusNext_root, headD_eq_get _ h]
  rw [Function.iterate_succ_apply, hroot, focusNext_iterate_get t h0, headD_eq_get _ h]
  apply congrArg
  exact Fin.ext (Nat.mul_mod_left k _)

/-- C1 (counterexample to the claim as stated): with two non-skip leaves
and `k = 1`, `k × (|non-skip leaves| + 1) = 3` presses of the next key do
not make the root the active container (they focus the first leaf). -/
theorem keyFocusNext_cycle_counterexample :
    (runEvents (sysNext twoLeafTree) initSt
        (List.replicate (1 * ((nonSkipLeaves twoLeafTree).length + 1))
          (Event.key keyNextTok))).active ≠ rootPath := by
  decide

/-- C1 witness: for the two-leaf tree and `k = 1`, three presses of the
next key focus the first leaf `B`. -/
theorem keyFocusNext_cycle_first_leaf_witness :
    (runEvents (sysNext twoLeafTree) initSt
        (List.replicate 3 (Event.key keyNextTok))).active = [false] := by
  have h := keyFocusNext_cycle_first_leaf twoLeafTree 1 (by decide)
  exact h.trans (by decide)

/-- C2: on a 10×10 terminal with a bordered root split vertically into a
left child (split horizontally into green top and white bottom) and a
red right child, every point on the root's border frame resolves to the
root, and the cited interior points resolve to the leaf children. -/
theorem pointCont_bordered_split_cases :
    (∀ p : Pt, (termRect 10 10).contains p →
      (p.x = 0 ∨ p.x = 9 ∨ p.y = 0 ∨ p.y = 9) →
      pointCont borderedTree (termRect 10 10) p = some rootPath) ∧
    pointCont borderedTree (termRect 10 10) ⟨0, 0⟩ = some rootPath ∧
    pointCont borderedTree (termRect 10 10) ⟨9, 9⟩ = some rootPath ∧
    pointCont borderedTree (termRect 10 10) ⟨0, 9⟩ = some rootPath ∧
    pointCont borderedTree (termRect 10 10) ⟨1, 1⟩ = some [false, false] ∧
    pointCont borderedTree (termRect 10 10) ⟨1, 8⟩ = some [false, true] ∧
    pointCont borderedTree (termRect 10 10) ⟨5, 5⟩ = some [true] ∧
    pointCont borderedTree (termRect 10 10) ⟨8, 8⟩ = some [true] := by
  refine ⟨?_, by decide, by decide, by decide, by decide, by decide, by decide, by decide⟩
  intro p hp hb
  have hsp : splitRects SplitDir.vertical 50 (childArea true (termRect 10 10)) =
      (Rect.mk 1 1 5 9, Rect.mk 5 1 9 9) := by decide
  have hrf : ¬ (Rect.mk 1 1 5 9).contains p := by
    simp only [Rect.contains, termRect, not_and, not_lt] at hp ⊢
    rcases hb with h | h | h | h <;> intros <;> omega
  have hrs : ¬ (Rect.mk 5 1 9 9).contains p := by
    simp only [Rect.contains, termRect, not_and, not_lt] at hp ⊢
    rcases hb with h | h | h | h <;> intros <;> omega
  show pointCont (Cont.split ⟨true, false, 0⟩ SplitDir.vertical 50
      (Cont.split ContOpts.default SplitDir.horizontal 50
        (Cont.leaf ContOpts.default) (Cont.leaf ContOpts.default))
      (Cont.leaf ContOpts.default)) (termRect 10 10) p = some rootPath
  rw [pointCont, if_pos hp]
  simp only [hsp]
  rw [if_neg hrf, if_neg hrs]

/-- C2 witness: the border point `(0,5)` of the 10×10 bordered tree lies
inside the terminal, on the frame, and resolves to the root. -/
theorem pointCont_bordered_split_cases_witness :
    (termRect 10 10).contains ⟨0, 5⟩ ∧
    pointCont borderedTree (termRect 10 10) ⟨0, 5⟩ = some rootPath :=
  ⟨by decide, pointCont_bordered_split_cases.1 ⟨0, 5⟩ (by decide) (by decide)⟩

/-- C3: while a left-click gesture is armed, a second left press re-arms
the gesture on the container at the new press position, and the
subsequent release sets the active container exactly when the release
position resolves to the re-armed container, leaving focus unchanged
otherwise. -/
theorem mouse_rearm_release (sys : Sys) (s : St) (n c : Path) (p q : Pt)
    (harm : s.fsm = FSM.armed n)
    (hp : pointCont sys.tree sys.term p = some c) :
    (runEvents sys s [Event.mouse p Button.left, Event.mouse q Button.release]).active =
      if pointCont sys.tree sys.term q = some c then c else s.active := by
  show (step sys (step sys s (Event.mouse p Button.left))
      (Event.mouse q Button.release)).active = _
  have h1 : step sys s (Event.mouse p Button.left) =
      ⟨s.active, FSM.armed c, s.processed + 1⟩ := by
    simp [step, mouseApply, hp]
  rw [h1]
  by_cases hq : pointCont sys.tree sys.term q = some c
  · simp [step, mouseApply, hq]
  · simp [step, mouseApply, hq]

/-- C3 witness: with the gesture armed on container C of the two-leaf
tree, pressing in B and releasing in B focuses B, while pressing in B and
releasing in C leaves the root focused. -/
theorem mouse_rearm_release_witness :
    (runEvents mouseSys ⟨rootPath, FSM.armed [true], 1⟩
        [Event.mouse ⟨1, 1⟩ Button.left, Event.mouse ⟨1, 1⟩ Button.release]).active = [false] ∧
    (runEvents mouseSys ⟨rootPath, FSM.armed [true], 1⟩
        [Event.mouse ⟨1, 1⟩ Button.left, Event.mouse ⟨6, 6⟩ Button.release]).active = rootPath := by
  constructor
  · have h := mouse_rearm_release mouseSys ⟨rootPath, FSM.armed [true], 1⟩ [true] [false]
      ⟨1, 1⟩ ⟨1, 1⟩ rfl (by decide)
    exact h.trans (by decide)
  · have h := mouse_rearm_release mouseSys ⟨rootPath, FSM.armed [true], 1⟩ [true] [false]
      ⟨1, 1⟩ ⟨6, 6⟩ rfl (by decide)
    exact h.trans (by decide)

/-- C4: a left press and a subsequent release whose positions resolve to
different containers leave the active container unchanged, from any
starting state. -/
theorem mouse_mismatch_no_focus_change (sys : Sys) (s : St) (pa pb : Pt) (ca cb : Path)
    (ha : pointCont sys.tree sys.term pa = some ca)
    (hb : pointCont sys.tree sys.term pb = some cb)
    (hne : ca ≠ cb) :
    (runEvents sys s [Event.mouse pa Button.left, Event.mouse pb Button.release]).active =
      s.active := by
  show (step sys (step sys s (Event.mouse pa Button.left))
      (Event.mouse pb Button.release)).active = _
  have h1 : step sys s (Event.mouse pa Button.left) =
      ⟨s.active, FSM.armed ca, s.processed + 1⟩ := by
    simp [step, mouseApply, ha]
  rw [h1]
  have hq : pointCont sys.tree sys.term pb ≠ some ca := by
    rw [hb]
    simpa using fun hcb => hne hcb.symm
  simp [step, mouseApply, hq]

/-- C4 witness: pressing at `(6,6)` (in C) and releasing at `(1,1)`
(in B) leaves the root active, and both events are processed. -/
theorem mouse_mismatch_no_focus_change_witness :
    (runEvents mouseSys initSt
        [Event.mouse ⟨6, 6⟩ Button.left, Event.mouse ⟨1, 1⟩ Button.release]).active = rootPath ∧
    (runEvents mouseSys initSt
        [Event.mouse ⟨6, 6⟩ Button.left, Event.mouse ⟨1, 1⟩ Button.release]).processed = 2 := by
  constructor
  · exact mouse_mismatch_no_focus_change mouseSys initSt ⟨6, 6⟩ ⟨1, 1⟩ [true] [false]
      (by decide) (by decide) (by decide)
  · decide

/-- C5: only the left button changes focus — a sequence of non-left
mouse events from the initial state leaves the root active, and a
non-release, non-left button press while a gesture is armed cancels the
gesture so that the following release changes nothing. -/
theorem non_left_buttons_never_focus (sys : Sys) (evs : List Event) (s : St) (n : Path)
    (p q : Pt) (b : Button)
    (hall : ∀ e ∈ evs, nonLeftMouse e = true)
    (harm : s.fsm = FSM.armed n) (hbl : b ≠ Button.left) (hbr : b ≠ Button.release) :
    (runEvents sys initSt evs).active = rootPath ∧
    (runEvents sys s [Event.mouse p b, Event.mouse q Button.release]).active = s.active := by
  constructor
  · exact (runEvents_nonLeft_idle sys evs initSt rfl hall).1
  · obtain ⟨a, f, pr⟩ := s
    cases harm
    show (step sys (step sys ⟨a, FSM.armed n, pr⟩ (Event.mouse p b))
        (Event.mouse q Button.release)).active = a
    have h1 : step sys ⟨a, FSM.armed n, pr⟩ (Event.mouse p b) =
        ⟨a, FSM.idle, pr + 1⟩ := by
      cases b with
      | left => exact absurd rfl hbl
      | release => exact absurd rfl hbr
      | middle => rfl
      | right => rfl
      | wheelUp => rfl
      | wheelDown => rfl
    rw [h1]
    rfl

/-- C5 witness: the six-event non-left sequence of the tests leaves the
root active, and an armed gesture cancelled by a middle press is not
completed by the following release. -/
theorem non_left_buttons_never_focus_witness :
    (runEvents mouseSys initSt
        [Event.mouse ⟨1, 1⟩ Button.middle, Event.mouse ⟨1, 1⟩ Button.release,
         Event.mouse ⟨1, 1⟩ Button.right, Event.mouse ⟨1, 1⟩ Button.release,
         Event.mouse ⟨1, 1⟩ Button.wheelUp, Event.mouse ⟨1, 1⟩ Button.wheelDown]).active =
      rootPath ∧
    (runEvents mouseSys ⟨rootPath, FSM.armed [true], 1⟩
        [Event.mouse ⟨6, 6⟩ Button.middle, Event.mouse ⟨6, 6⟩ Button.release]).active =
      rootPath := by
  have h := non_left_buttons_never_focus mouseSys
    [Event.mouse ⟨1, 1⟩ Button.middle, Event.mouse ⟨1, 1⟩ Button.release,
     Event.mouse ⟨1, 1⟩ Button.right, Event.mouse ⟨1, 1⟩ Button.release,
     Event.mouse ⟨1, 1⟩ Button.wheelUp, Event.mouse ⟨1, 1⟩ Button.wheelDown]
    ⟨rootPath, FSM.armed [true], 1⟩ [true] ⟨6, 6⟩ ⟨6, 6⟩ Button.middle
    (by decide) rfl (by decide) (by decide)
  exact ⟨h.1, h.2⟩

/-- C6: the processed counter counts every submitted event exactly once,
whether or not it changed focus, and is monotonically non-decreasing
along prefixes of the submitted sequence. -/
theorem processed_counts_all_events (sys : Sys) (s : St) (evs more : List Event) :
    (runEvents sys s (evs ++ more)).processed = s.processed + evs.length + more.length ∧
    (runEvents sys s evs).processed ≤ (runEvents sys s (evs ++ more)).processed := by
  constructor
  · rw [processed_runEvents]
    simp [Nat.add_assoc]
  · rw [processed_runEvents, processed_runEvents]
    simp

/-- C7: global keyboard traversal skips flagged leaves and is
directional from the root — one next press focuses the first non-skip
leaf (so with the left leaf skipped it focuses the right leaf), one
previous press focuses the last non-skip leaf, and with every leaf
skipped either key leaves the root active. -/
theorem global_traversal_skip_directional (t : Cont) :
    (runEvents (sysNext t) initSt [Event.key keyNextTok]).active =
      (nonSkipLeaves t).headD rootPath ∧
    (runEvents (sysPrev t) initSt [Event.key keyPrevTok]).active =
      (nonSkipLeaves t).getLastD rootPath ∧
    (runEvents (sysNext skipLeftTree) initSt [Event.key keyNextTok]).active = [true] ∧
    (runEvents (sysNext skipBothTree) initSt [Event.key keyNextTok]).active = rootPath ∧
    (runEvents (sysPrev skipBothTree) initSt [Event.key keyPrevTok]).active = rootPath := by
  refine ⟨?_, ?_, by decide, by decide, by decide⟩
  · show (step (sysNext t) initSt (Event.key keyNextTok)).active = _
    rw [active_step_keyNext]
    exact focusNext_root t
  · show (step (sysPrev t) initSt (Event.key keyPrevTok)).active = _
    rw [active_step_keyPrev]
    exact focusPrevious_root t

/-- C8: focus-group traversal ignores the `focus_skip` flag and group 0
contains every leaf — from the root one group-next press focuses the
first group member and one group-previous press focuses the last, and
with both children skipped one group-next press still focuses the first
leaf. -/
theorem group_traversal_ignores_skip (t : Cont) (g : Nat) :
    (runEvents (sysGroupNext t g) initSt [Event.key keyGroupNextTok]).active =
      (groupLeaves t g).headD rootPath ∧
    (runEvents (sysGroupPrev t g) initSt [Event.key keyGroupPrevTok]).active =
      (groupLeaves t g).getLastD rootPath ∧
    groupLeaves t 0 = leafPaths t ∧
    (runEvents (sysGroupNext skipBothTree 0) initSt [Event.key keyGroupNextTok]).active =
      [false] := by
  refine ⟨?_, ?_, ?_, by decide⟩
  · show (step (sysGroupNext t g) initSt (Event.key keyGroupNextTok)).active = _
    rw [active_step_keyGroupNext]
    exact groupFocusNext_root t g
  · show (step (sysGroupPrev t g) initSt (Event.key keyGroupPrevTok)).active = _
    rw [active_step_keyGroupPrev]
    exact groupFocusPrevious_root t g
  · simp [groupLeaves, selLeaves, leafPaths, inGroup]

/-- C9: `pointCont` returns `none` exactly for points outside the
terminal rectangle — on a 3×3 terminal `(3,3)` and `(-1,-1)` resolve to
nothing — and for every point inside the rectangle it returns exactly
one container. -/
theorem pointCont_none_iff_outside :
    (∀ (t : Cont) (r : Rect) (p : Pt), pointCont t r p = Option.none ↔ ¬ r.contains p) ∧
    pointCont singleLeaf (termRect 3 3) ⟨3, 3⟩ = Option.none ∧
    pointCont singleLeaf (termRect 3 3) ⟨-1, -1⟩ = Option.none ∧
    (∀ (t : Cont) (r : Rect) (p : Pt), r.contains p →
      ∃ q : Path, pointCont t r p = some q) := by
  refine ⟨pointCont_eq_none_iff, by decide, by decide, ?_⟩
  intro t r p hp
  exact Option.isSome_iff_exists.mp (pointCont_isSome t r p hp)

/-- C9 witness: the interior point `(1,1)` of the 3×3 terminal resolves
to some container. -/
theorem pointCont_none_iff_outside_witness :
    ∃ q : Path, pointCont singleLeaf (termRect 3 3) ⟨1, 1⟩ = some q :=
  pointCont_none_iff_outside.2.2.2 singleLeaf (termRect 3 3) ⟨1, 1⟩ (by decide)

/-- C10: in a tree consisting of a single root container with no split,
pressing the key bound to `key_focus_next` or `key_focus_previous`
leaves the root active, and the key event still increments the processed
counter. -/
theorem single_root_traversal_noop :
    (runEvents (sysNext singleLeaf) initSt [Event.key keyNextTok]).active = rootPath ∧
    (runEvents (sysNext singleLeaf) initSt [Event.key keyNextTok]).processed = 1 ∧
    (runEvents (sysPrev singleLeaf) initSt [Event.key keyPrevTok]).active = rootPath ∧
    (runEvents (sysPrev singleLeaf) initSt [Event.key keyPrevTok]).processed = 1 := by
  decide

end Termdash
